import Mathlib

/-!
Verification of the dsa_abc library: a raw-pointer binary search tree
(src/binary_search_tree.rs, embedded in namespace `Bst`), a second, earlier
binary search tree (src/lib.rs, embedded in namespace `LibT`), and a raw
pointer singly linked list (src/singly_linked_list.rs, embedded in
namespace `Sll`).

Embedding conventions:
- Tree nodes are owned through their parent's slot, so the pointer graph is a
  tree and is embedded as the inductive `Tree.RTree`; a null child pointer is
  `RTree.nil`.
- Rust functions that can dereference a null pointer, free a null pointer, or
  unwrap `None` return `Option` here, with `none` marking the fault
  (undefined behaviour / panic).  Functions that cannot fault are total.
- `drop(Box::from_raw(p))` on a non-null pointer makes the node (and
  everything only reachable through it) unreachable; in the tree embedding
  the corresponding slot simply becomes `nil`.  Reads that Rust performs
  from a node just freed (`find_successor_and_delete` returns a reference
  into the freed successor) are modelled by capturing the value before the
  free, which is the behavioural content of the code.
- The element type carries a `LinearOrder`, matching the spec's
  totally-ordered element type; Rust's `a > b` / `a < b` / `a == b` become
  the order's decidable comparisons.
-/

namespace Dsa

/-- Binary tree with owned child slots; `nil` models a null child pointer
(the `*mut Node<T>` being null). A `node` holds `data` and its two slots. -/
inductive RTree (T : Type) where
  | nil : RTree T
  | node (data : T) (left : RTree T) (right : RTree T) : RTree T
deriving DecidableEq

namespace Tree

variable {T : Type} [LinearOrder T]

/-- Rust `add_node` (identical in binary_search_tree.rs and lib.rs): walk by
comparison, create a fresh leaf in the first empty slot in the search path;
equal data falls through both branches and nothing happens. The Rust
function is never called on a null node; on `nil` we return `nil`. -/
def add_node (data : T) : RTree T → RTree T
  | .nil => .nil
  | .node d l r =>
    if data > d then
      match r with
      | .nil => .node d l (.node data .nil .nil)
      | .node dr lr rr => .node d l (add_node data (.node dr lr rr))
    else if data < d then
      match l with
      | .nil => .node d (.node data .nil .nil) r
      | .node dl ll rl => .node d (add_node data (.node dl ll rl)) r
    else .node d l r

/-- Rust `get_node` (identical in both tree files): walk by comparison,
return the matching node's data. -/
def get_node (data : T) : RTree T → Option T
  | .nil => none
  | .node d l r =>
    if data > d then get_node data r
    else if data < d then get_node data l
    else some d

/-- Rust `BinarySearchTree::get` (identical in both tree files). -/
def get (t : RTree T) (data : T) : Option T :=
  get_node data t

/-- Values visited by `in_order_node` (left, node, right), collected in
callback order. -/
def in_order : RTree T → List T
  | .nil => []
  | .node d l r => in_order l ++ d :: in_order r

/-- Values visited by `pre_order_node` (node, left, right). -/
def pre_order : RTree T → List T
  | .nil => []
  | .node d l r => d :: (pre_order l ++ pre_order r)

/-- Values visited by `post_order_node` (left, right, node). -/
def post_order : RTree T → List T
  | .nil => []
  | .node d l r => post_order l ++ post_order r ++ [d]

/-- Overwriting a node's data field (`(*node).data = successor.clone()`). -/
def setData (v : T) : RTree T → RTree T
  | .nil => .nil
  | .node _ l r => .node v l r

/-- Loop of `find_successor_and_delete` after the first descent: `past` is
the argument's root, `current` its left child (non-nil at every call from
the loop's guard). When `current.left` is null the loop stops and, since
`current` is `past`'s left child, `past.delete_left()` frees `current`'s
node; `current`'s own right subtree becomes unreachable with it. Returns
the freed node's data (read by Rust after the free) and the updated
subtree. `none` covers the shapes the loop never reaches. -/
def succ_loop : RTree T → Option (T × RTree T)
  | .node dc (.node dl ll rl) rc =>
    match ll with
    | .nil => some (dl, .node dc .nil rc)
    | .node dll lll rll =>
      match succ_loop (.node dl (.node dll lll rll) rl) with
      | some (v, l2) => some (v, .node dc l2 rc)
      | none => none
  | _ => none

/-- Rust `find_successor_and_delete` (identical in both tree files): if the
node's right slot is null return `None`; otherwise walk to the leftmost
node of the right subtree and free it through its parent's slot
(`past.delete_right()` when the loop never ran, i.e. the right child itself
has no left child, otherwise `past.delete_left()`), returning its data. -/
def find_successor_and_delete : RTree T → Option (T × RTree T)
  | .nil => none
  | .node d l r =>
    match r with
    | .nil => none
    | .node dr lr rr =>
      match lr with
      | .nil => some (dr, .node d l .nil)
      | .node dlr llr rlr =>
        match succ_loop (.node dr (.node dlr llr rlr) rr) with
        | some (v, r2) => some (v, .node d l r2)
        | none => none

end Tree

namespace Bst

open Tree

variable {T : Type} [LinearOrder T]

/-- Rust `BinarySearchTree::new` of binary_search_tree.rs: one root node. -/
def new (data : T) : RTree T :=
  .node data .nil .nil

/-- Rust `BinarySearchTree::add` of binary_search_tree.rs: a null root is
replaced by a fresh node, otherwise `add_node` runs from the root. -/
def add (t : RTree T) (data : T) : RTree T :=
  match t with
  | .nil => .node data .nil .nil
  | .node d l r => add_node data (.node d l r)

/-- Rust `delete_node_helper` of binary_search_tree.rs, acting on the parent
node `node d l r`; `right` tells whether the matched child sits in the
parent's right slot. Two children: replace the child's data with the
successor's data obtained by `find_successor_and_delete` (the `unwrap`
cannot panic there, `none` models the panic). No children: free the child
through the parent's flagged slot. One child: `delete_right`/`delete_left`
frees the child's single child subtree, the matched node itself stays. -/
def delete_node_helper (d : T) (l r : RTree T) (right : Bool) : Option (RTree T) :=
  match (if right then r else l) with
  | .nil => none
  | .node dc lc rc =>
    if lc ≠ .nil ∧ rc ≠ .nil then
      match find_successor_and_delete (.node dc lc rc) with
      | some (v, child2) =>
        some (if right then .node d l (setData v child2) else .node d (setData v child2) r)
      | none => none
    else if lc = .nil ∧ rc = .nil then
      some (if right then .node d l .nil else .node d .nil r)
    else
      some (if right then .node d l (.node dc .nil .nil) else .node d (.node dc .nil .nil) r)

/-- Rust `delete_node` of binary_search_tree.rs: descend comparing the data,
inspect the child on the matching side first; when the child's data matches,
run the helper on this node as parent, otherwise recurse into the child. -/
def delete_node (data : T) : RTree T → Option (RTree T)
  | .nil => some .nil
  | .node d l r =>
    if data > d then
      match r with
      | .nil => some (.node d l .nil)
      | .node dr lr rr =>
        if data = dr then delete_node_helper d l (.node dr lr rr) true
        else
          match delete_node data (.node dr lr rr) with
          | some r2 => some (.node d l r2)
          | none => none
    else if data < d then
      match l with
      | .nil => some (.node d .nil r)
      | .node dl ll rl =>
        if data = dl then delete_node_helper d (.node dl ll rl) r false
        else
          match delete_node data (.node dl ll rl) with
          | some l2 => some (.node d l2 r)
          | none => none
    else some (.node d l r)

/-- Rust `BinarySearchTree::delete` of binary_search_tree.rs: dereferences
the root unconditionally (`none` when the root is null, undefined
behaviour); when the root's data matches, the root box is dropped and the
root slot nulled, making both subtrees unreachable; otherwise
`delete_node` runs from the root. -/
def delete (t : RTree T) (data : T) : Option (RTree T) :=
  match t with
  | .nil => none
  | .node d l r =>
    if d = data then some .nil
    else delete_node data (.node d l r)

end Bst

namespace LibT

open Tree

variable {T : Type} [LinearOrder T]

/-- Rust `BinarySearchTree::new` of lib.rs: one root node. -/
def new (data : T) : RTree T :=
  .node data .nil .nil

/-- Rust `BinarySearchTree::add` of lib.rs: calls `add_node` on the root
with no null check, so on an empty tree it dereferences a null pointer
(`none`). -/
def add (t : RTree T) (data : T) : Option (RTree T) :=
  match t with
  | .nil => none
  | .node d l r => some (add_node data (.node d l r))

/-- Rust `delete_node_helper` of lib.rs, acting on the parent `node d l r`
whose matched child sits in the right slot iff `right` (the Rust function
is not told the side; `right` only records where the call found the
child). Two children and one child behave as in binary_search_tree.rs, but
the no-children case always runs `(*parent).delete_right()`, whichever
side the matched child is on; when the parent's right slot is null that
frees a null pointer (`none`, undefined behaviour). -/
def delete_node_helper (d : T) (l r : RTree T) (right : Bool) : Option (RTree T) :=
  match (if right then r else l) with
  | .nil => none
  | .node dc lc rc =>
    if lc ≠ .nil ∧ rc ≠ .nil then
      match find_successor_and_delete (.node dc lc rc) with
      | some (v, child2) =>
        some (if right then .node d l (setData v child2) else .node d (setData v child2) r)
      | none => none
    else if lc = .nil ∧ rc = .nil then
      match r with
      | .nil => none
      | .node _ _ _ => some (.node d l .nil)
    else
      some (if right then .node d l (.node dc .nil .nil) else .node d (.node dc .nil .nil) r)

/-- Rust `delete_node` of lib.rs: same descent as binary_search_tree.rs's,
calling lib.rs's helper. -/
def delete_node (data : T) : RTree T → Option (RTree T)
  | .nil => some .nil
  | .node d l r =>
    if data > d then
      match r with
      | .nil => some (.node d l .nil)
      | .node dr lr rr =>
        if data = dr then delete_node_helper d l (.node dr lr rr) true
        else
          match delete_node data (.node dr lr rr) with
          | some r2 => some (.node d l r2)
          | none => none
    else if data < d then
      match l with
      | .nil => some (.node d .nil r)
      | .node dl ll rl =>
        if data = dl then delete_node_helper d (.node dl ll rl) r false
        else
          match delete_node data (.node dl ll rl) with
          | some l2 => some (.node d l2 r)
          | none => none
    else some (.node d l r)

/-- Rust `BinarySearchTree::delete` of lib.rs: identical to the
binary_search_tree.rs version (null-root dereference is `none`; a matching
root is dropped together with its subtrees' reachability). -/
def delete (t : RTree T) (data : T) : Option (RTree T) :=
  match t with
  | .nil => none
  | .node d l r =>
    if d = data then some .nil
    else delete_node data (.node d l r)

end LibT

namespace Sll

/-- List node of singly_linked_list.rs: a value and the owned next slot
(`none` models a null next pointer). -/
structure Node (T : Type) where
  data : T
  next : Option Nat
deriving DecidableEq

/-- The SinglyLinkedList struct. Nodes live in `heap`, addressed by their
position; allocation appends (addresses are never reused) and freeing a
node merely makes it unreachable, matching the behavioural effect of
`drop(Box::from_raw(..))`. `root` and `leaf` are the head pointer and the
non-owning tail pointer; `size` is the public size field (a u32 in Rust;
it only ever moves by one and every subtraction in the embedded operations
happens under a non-empty check, so Nat is faithful). -/
structure SinglyLinkedList (T : Type) where
  heap : List (Node T)
  root : Option Nat
  leaf : Option Nat
  size : Nat
deriving DecidableEq

variable {T : Type} [DecidableEq T]

/-- Writing through a node pointer: `(*p).next = nxt`. Out-of-range
addresses leave the heap unchanged (callers dereference `p` first, which
already faults on a dangling pointer). -/
def setNext (h : List (Node T)) (p : Nat) (nxt : Option Nat) : List (Node T) :=
  match h[p]? with
  | some nd => h.set p (Node.mk nd.data nxt)
  | none => h

/-- Rust `SinglyLinkedList::new`: a single node that is both root and leaf. -/
def new (data : T) : SinglyLinkedList T :=
  SinglyLinkedList.mk [Node.mk data none] (some 0) (some 0) 1

/-- Rust `SinglyLinkedList::new_empty`. -/
def new_empty : SinglyLinkedList T :=
  SinglyLinkedList.mk [] none none 0

/-- Rust `push`: null leaf means fresh root and leaf; otherwise hang a new
node off the leaf's next slot (early return, without touching size, if that
slot is somehow occupied) and advance the leaf. -/
def push (s : SinglyLinkedList T) (data : T) : Option (SinglyLinkedList T) :=
  match s.leaf with
  | none =>
    some (SinglyLinkedList.mk (s.heap ++ [Node.mk data none])
      (some s.heap.length) (some s.heap.length) (s.size + 1))
  | some lp =>
    match s.heap[lp]? with
    | none => none
    | some nd =>
      match nd.next with
      | some _ => some s
      | none =>
        some (SinglyLinkedList.mk
          (setNext s.heap lp (some s.heap.length) ++ [Node.mk data none])
          s.root (some s.heap.length) (s.size + 1))

/-- Rust `insert`: new head pointing at the former root; a null leaf is
redirected to the new node. -/
def insert (s : SinglyLinkedList T) (data : T) : SinglyLinkedList T :=
  SinglyLinkedList.mk (s.heap ++ [Node.mk data s.root]) (some s.heap.length)
    (if s.leaf = none then some s.heap.length else s.leaf) (s.size + 1)

/-- Loop of Rust `pop`: walk until the node whose grandchild slot is null.
Faults (`none`) on a dangling or null dereference; fuel exhaustion models a
non-terminating walk on a cyclic heap, which no reachable state has. -/
def popLoop (h : List (Node T)) : Nat → Nat → Option Nat
  | 0, _ => none
  | fuel + 1, current =>
    match h[current]? with
    | none => none
    | some nd =>
      match nd.next with
      | none => none
      | some np =>
        match h[np]? with
        | none => none
        | some nnd =>
          match nnd.next with
          | none => some current
          | some _ => popLoop h fuel np

/-- Rust `pop`: when leaf and root are the same pointer the root box is
freed unconditionally — `Box::from_raw(null)` on the empty list is the
fault (`none`). Otherwise scan from the root for the node before the
leaf, null its next slot and retarget the leaf. -/
def pop (s : SinglyLinkedList T) : Option (SinglyLinkedList T) :=
  if s.leaf = s.root then
    match s.root with
    | none => none
    | some _ => some (SinglyLinkedList.mk s.heap none none 0)
  else
    match s.root with
    | none => none
    | some rp =>
      match popLoop s.heap (s.heap.length + 1) rp with
      | none => none
      | some current =>
        some (SinglyLinkedList.mk (setNext s.heap current none) s.root
          (some current) (s.size - 1))

/-- Rust `remove_first`: size-zero guard, single-element reset, otherwise
re-point the root at its successor. -/
def remove_first (s : SinglyLinkedList T) : Option (SinglyLinkedList T) :=
  if s.size = 0 then some s
  else if s.leaf = s.root then
    match s.root with
    | none => none
    | some _ => some (SinglyLinkedList.mk s.heap none none 0)
  else
    match s.root with
    | none => none
    | some rp =>
      match s.heap[rp]? with
      | none => none
      | some nd => some (SinglyLinkedList.mk s.heap nd.next s.leaf (s.size - 1))

/-- Loop of Rust `remove_data`: trailing-pointer scan from the second node.
On a match the node is freed and `past.next` re-linked around it — and the
size field is not touched there (the Rust body has no size update on this
path). Reaching the tail without a match is the silent no-op return. -/
def removeDataLoop (s : SinglyLinkedList T) (data : T) :
    Nat → Nat → Nat → Option (SinglyLinkedList T)
  | 0, _, _ => none
  | fuel + 1, past, current =>
    match s.heap[current]? with
    | none => none
    | some cnd =>
      if cnd.data = data then
        some (SinglyLinkedList.mk (setNext s.heap past cnd.next) s.root s.leaf s.size)
      else
        match cnd.next with
        | none => some s
        | some np => removeDataLoop s data fuel current np

/-- Rust `remove_data`: dereferences the root and the leaf up front (null
root or leaf is the fault, so the empty list faults), delegating to
`remove_first`/`pop` on a head or tail match, otherwise scanning from the
second node (a null second node is dereferenced by the loop condition:
fault on a one-element list without a match). -/
def remove_data (s : SinglyLinkedList T) (data : T) : Option (SinglyLinkedList T) :=
  match s.root with
  | none => none
  | some rp =>
    match s.heap[rp]? with
    | none => none
    | some rnd =>
      if rnd.data = data then remove_first s
      else
        match s.leaf with
        | none => none
        | some lp =>
          match s.heap[lp]? with
          | none => none
          | some lnd =>
            if lnd.data = data then pop s
            else
              match rnd.next with
              | none => none
              | some cp => removeDataLoop s data (s.heap.length + 1) rp cp

/-- Loop of Rust `remove_at`: walk while the next slot is non-null and
`pos < index`; one step before the index, free the next node and re-link
around it (the re-linking reads the freed node's next slot, captured
here before the free), decrementing size. Leaving the loop without a
removal is the silent no-op. The loop runs at most `index` iterations
(`pos` grows by one per step), so fuel `index + 1` is never exhausted. -/
def removeAtLoop (s : SinglyLinkedList T) (index : Nat) :
    Nat → Nat → Nat → Option (SinglyLinkedList T)
  | 0, _, _ => none
  | fuel + 1, current, pos =>
    match s.heap[current]? with
    | none => none
    | some cnd =>
      if cnd.next ≠ none ∧ pos < index then
        if pos = index - 1 then
          match cnd.next with
          | none => none
          | some np =>
            match s.heap[np]? with
            | none => none
            | some nnd =>
              some (SinglyLinkedList.mk (setNext s.heap current nnd.next)
                s.root s.leaf (s.size - 1))
        else
          match cnd.next with
          | none => none
          | some np => removeAtLoop s index fuel np (pos + 1)
      else some s

/-- Rust `remove_at`: size-zero guard (silent no-op), index 0 delegates to
`remove_first`, last index to `pop`, otherwise the trailing scan. -/
def remove_at (s : SinglyLinkedList T) (index : Nat) : Option (SinglyLinkedList T) :=
  if s.size = 0 then some s
  else if index = 0 then remove_first s
  else if index = s.size - 1 then pop s
  else
    match s.root with
    | none => none
    | some rp => removeAtLoop s index (index + 1) rp 0

/-- Rust `get_first`: the root's data, or nothing on a null root. The outer
Option is the fault layer (a dangling root), the inner one is the Rust
return value. -/
def get_first (s : SinglyLinkedList T) : Option (Option T) :=
  match s.root with
  | none => some none
  | some p =>
    match s.heap[p]? with
    | none => none
    | some nd => some (some nd.data)

/-- Rust `get_last`: the leaf's data, or nothing on a null leaf. -/
def get_last (s : SinglyLinkedList T) : Option (Option T) :=
  match s.leaf with
  | none => some none
  | some p =>
    match s.heap[p]? with
    | none => none
    | some nd => some (some nd.data)

/-- Loop of Rust `get`: walk while the next slot is non-null and
`pos < index`, returning the final pointer and position. Fuel `index + 1`
is never exhausted since `pos` grows by one per step. -/
def getLoop (h : List (Node T)) (index : Nat) : Nat → Nat → Nat → Option (Nat × Nat)
  | 0, _, _ => none
  | fuel + 1, current, pos =>
    match h[current]? with
    | none => none
    | some nd =>
      if nd.next ≠ none ∧ pos < index then
        match nd.next with
        | none => none
        | some np => getLoop h index fuel np (pos + 1)
      else some (current, pos)

/-- Rust `get`: empty list gives nothing, the last index reads the leaf,
index 0 reads the root, otherwise scan; a walk that stops short of the
index (next became null first) gives nothing. -/
def get (s : SinglyLinkedList T) (index : Nat) : Option (Option T) :=
  if s.size = 0 then some none
  else if index = s.size - 1 then get_last s
  else if index = 0 then get_first s
  else
    match s.root with
    | none => none
    | some rp =>
      match getLoop s.heap index (index + 1) rp 0 with
      | none => none
      | some (current, pos) =>
        if pos ≠ index then some none
        else
          match s.heap[current]? with
          | none => none
          | some nd => some (some nd.data)

/-- The reachable chain of addresses: `chainB h p ps` holds when following
next pointers from `p` visits exactly the addresses `ps` and ends at a
null pointer — the §3 invariant's reachability, tail-is-last and
tail-next-empty conditions in one predicate. -/
def chainB (h : List (Node T)) : Option Nat → List Nat → Bool
  | none, [] => true
  | some p, q :: ps =>
    p == q &&
      (match h[p]? with
       | some nd => chainB h nd.next ps
       | none => false)
  | _, _ => false

/-- Values along a chain of addresses. -/
def chainVals (h : List (Node T)) (ps : List Nat) : List T :=
  ps.filterMap (fun p => (h[p]?).map Node.data)

/-- Number of nodes reachable from a pointer by following next slots
(`none` on a dangling pointer or when the fuel runs out on a cycle). -/
def reachLen (h : List (Node T)) : Nat → Option Nat → Option Nat
  | _, none => some 0
  | 0, some _ => none
  | fuel + 1, some p =>
    match h[p]? with
    | none => none
    | some nd => (reachLen h fuel nd.next).map (· + 1)

end Sll

/-- The §3 ordering invariant of the spec's data model: every value in a
node's left subtree is smaller than the node's data and every value in the
right subtree larger, recursively. -/
def Tree.isBst {T : Type} [LinearOrder T] : RTree T → Prop
  | .nil => True
  | .node d l r =>
      (∀ x ∈ Tree.in_order l, x < d) ∧ (∀ x ∈ Tree.in_order r, d < x)
        ∧ Tree.isBst l ∧ Tree.isBst r

end Dsa

namespace Dsa

/-- Unfolding lemma for add_node at a node, with the Rust comparison
cascade explicit (the compiled equations of the definition are split by
the children's shapes, so they do not rewrite on variable children). -/
theorem add_node_node {T : Type} [LinearOrder T] (v d : T) (l r : RTree T) :
    Tree.add_node v (.node d l r)
      = if v > d then
          (match r with
           | RTree.nil => RTree.node d l (.node v .nil .nil)
           | RTree.node dr lr rr => RTree.node d l (Tree.add_node v (.node dr lr rr)))
        else if v < d then
          (match l with
           | RTree.nil => RTree.node d (.node v .nil .nil) r
           | RTree.node dl ll rl => RTree.node d (Tree.add_node v (.node dl ll rl)) r)
        else RTree.node d l r := by
  rw [Tree.add_node.eq_def]

/-- add_node, greater case, empty right slot: a fresh right leaf. -/
theorem add_node_gt_nil {T : Type} [LinearOrder T] {v d : T} (l : RTree T) (h1 : v > d) :
    Tree.add_node v (.node d l .nil) = .node d l (.node v .nil .nil) := by
  rw [add_node_node]; simp [h1]

/-- add_node, greater case, occupied right slot: recurse right. -/
theorem add_node_gt_node {T : Type} [LinearOrder T] {v d : T} (l r : RTree T)
    (hr : r ≠ .nil) (h1 : v > d) :
    Tree.add_node v (.node d l r) = .node d l (Tree.add_node v r) := by
  cases r with
  | nil => exact absurd rfl hr
  | node dr lr rr => rw [add_node_node]; simp [h1]

/-- add_node, smaller case, empty left slot: a fresh left leaf. -/
theorem add_node_lt_nil {T : Type} [LinearOrder T] {v d : T} (r : RTree T) (h2 : v < d) :
    Tree.add_node v (.node d .nil r) = .node d (.node v .nil .nil) r := by
  rw [add_node_node]; simp [lt_asymm h2, h2]

/-- add_node, smaller case, occupied left slot: recurse left. -/
theorem add_node_lt_node {T : Type} [LinearOrder T] {v d : T} (l r : RTree T)
    (hl : l ≠ .nil) (h2 : v < d) :
    Tree.add_node v (.node d l r) = .node d (Tree.add_node v l) r := by
  cases l with
  | nil => exact absurd rfl hl
  | node dl ll rl => rw [add_node_node]; simp [lt_asymm h2, h2]

/-- add_node, equal case: silent no-op. -/
theorem add_node_stop {T : Type} [LinearOrder T] {v d : T} (l r : RTree T)
    (h1 : ¬v > d) (h2 : ¬v < d) :
    Tree.add_node v (.node d l r) = .node d l r := by
  rw [add_node_node]; simp [h1, h2]

/-- Unfolding lemma for get_node at a node. -/
theorem get_node_node {T : Type} [LinearOrder T] (v d : T) (l r : RTree T) :
    Tree.get_node v (.node d l r)
      = if v > d then Tree.get_node v r
        else if v < d then Tree.get_node v l
        else some d := by
  rw [Tree.get_node.eq_def]

/-- Insertion only ever contributes the inserted value: anything visited by
in_order after add_node was either just inserted or was already there. -/
theorem mem_add_node {T : Type} [LinearOrder T] (v : T) :
    ∀ t : RTree T, ∀ x ∈ Tree.in_order (Tree.add_node v t), x = v ∨ x ∈ Tree.in_order t := by
  intro t
  induction t with
  | nil => simp [Tree.add_node, Tree.in_order]
  | node d l r ihl ihr =>
    intro x hx
    by_cases h1 : v > d
    · cases r with
      | nil =>
        rw [add_node_gt_nil l h1] at hx
        simp only [Tree.in_order, List.mem_append, List.mem_cons,
          List.not_mem_nil, or_false] at hx ⊢
        tauto
      | node dr lr rr =>
        rw [add_node_gt_node l _ (by simp) h1] at hx
        simp only [Tree.in_order, List.mem_append, List.mem_cons] at hx ⊢
        rcases hx with hx | hx | hx
        · tauto
        · tauto
        · rcases ihr x hx with h | h
          · tauto
          · simp only [Tree.in_order, List.mem_append, List.mem_cons] at h
            tauto
    · by_cases h2 : v < d
      · cases l with
        | nil =>
          rw [add_node_lt_nil r h2] at hx
          simp only [Tree.in_order, List.mem_append, List.mem_cons,
            List.not_mem_nil, or_false, List.nil_append] at hx ⊢
          tauto
        | node dl ll rl =>
          rw [add_node_lt_node _ r (by simp) h2] at hx
          simp only [Tree.in_order, List.mem_append, List.mem_cons] at hx ⊢
          rcases hx with hx | hx | hx
          · rcases ihl x hx with h | h
            · tauto
            · simp only [Tree.in_order, List.mem_append, List.mem_cons] at h
              tauto
          · tauto
          · tauto
      · rw [add_node_stop l r h1 h2] at hx
        exact Or.inr hx

/-- add_node preserves the §3 ordering invariant. -/
theorem isBst_add_node {T : Type} [LinearOrder T] (v : T) :
    ∀ t : RTree T, Tree.isBst t → Tree.isBst (Tree.add_node v t) := by
  intro t
  induction t with
  | nil => intro _; simp [Tree.add_node, Tree.isBst]
  | node d l r ihl ihr =>
    rintro ⟨hbl, hbr, hl, hr⟩
    by_cases h1 : v > d
    · cases r with
      | nil =>
        rw [add_node_gt_nil l h1]
        refine ⟨hbl, ?_, hl, ?_⟩
        · simp only [Tree.in_order, List.nil_append, List.mem_cons,
            List.not_mem_nil, or_false]
          rintro x rfl
          exact h1
        · simp [Tree.isBst, Tree.in_order]
      | node dr lr rr =>
        rw [add_node_gt_node l _ (by simp) h1]
        refine ⟨hbl, ?_, hl, ihr hr⟩
        intro x hx
        rcases mem_add_node v _ x hx with rfl | hx
        · exact h1
        · exact hbr x hx
    · by_cases h2 : v < d
      · cases l with
        | nil =>
          rw [add_node_lt_nil r h2]
          refine ⟨?_, hbr, ?_, hr⟩
          · simp only [Tree.in_order, List.nil_append, List.mem_cons,
              List.not_mem_nil, or_false]
            rintro x rfl
            exact h2
          · simp [Tree.isBst, Tree.in_order]
        | node dl ll rl =>
          rw [add_node_lt_node _ r (by simp) h2]
          refine ⟨?_, hbr, ihl hl, hr⟩
          intro x hx
          rcases mem_add_node v _ x hx with rfl | hx
          · exact h2
          · exact hbl x hx
      · rw [add_node_stop l r h1 h2]
        exact ⟨hbl, hbr, hl, hr⟩

/-- The public add preserves the §3 ordering invariant. -/
theorem isBst_add {T : Type} [LinearOrder T] (t : RTree T) (v : T)
    (h : Tree.isBst t) : Tree.isBst (Bst.add t v) := by
  cases t with
  | nil => simp [Bst.add, Tree.isBst, Tree.in_order]
  | node d l r => exact isBst_add_node v (.node d l r) h

/-- Any fold of adds preserves the §3 ordering invariant. -/
theorem isBst_foldl_add {T : Type} [LinearOrder T] (vs : List T) :
    ∀ t : RTree T, Tree.isBst t → Tree.isBst (vs.foldl Bst.add t) := by
  induction vs with
  | nil => intro t h; simpa using h
  | cons v vs ih => intro t h; exact ih _ (isBst_add t v h)

/-- The in_order traversal of an invariant-satisfying tree is strictly
sorted. -/
theorem sorted_in_order_of_isBst {T : Type} [LinearOrder T] :
    ∀ t : RTree T, Tree.isBst t → (Tree.in_order t).Sorted (· < ·) := by
  intro t
  induction t with
  | nil => simp [Tree.in_order, List.Sorted]
  | node d l r ihl ihr =>
    rintro ⟨hbl, hbr, hl, hr⟩
    simp only [Tree.in_order]
    rw [show ((Tree.in_order l ++ d :: Tree.in_order r).Sorted (· < ·))
        = ((Tree.in_order l ++ d :: Tree.in_order r).Pairwise (· < ·)) from rfl,
      List.pairwise_append]
    refine ⟨ihl hl, ?_, ?_⟩
    · rw [List.pairwise_cons]
      exact ⟨fun y hy => hbr y hy, ihr hr⟩
    · intro a ha b hb
      rcases List.mem_cons.mp hb with rfl | hb
      · exact hbl a ha
      · exact lt_trans (hbl a ha) (hbr b hb)

/-- C5: for every finite sequence of add calls starting from new(v) over a
totally ordered element type, the sequence of values visited by in_order
is non-decreasing — indeed strictly ascending, duplicates never being
stored. -/
theorem bst_in_order_sorted_after_adds {T : Type} [LinearOrder T] (v : T) (vs : List T) :
    (Tree.in_order (vs.foldl Bst.add (Bst.new v))).Sorted (· ≤ ·)
      ∧ (Tree.in_order (vs.foldl Bst.add (Bst.new v))).Sorted (· < ·) := by
  have hb : Tree.isBst (Bst.new v) := by
    simp [Bst.new, Tree.isBst, Tree.in_order]
  have hs := sorted_in_order_of_isBst _ (isBst_foldl_add vs _ hb)
  exact ⟨hs.le_of_lt, hs⟩

/-- When the search path already finds the value, add_node rebuilds the
tree unchanged. -/
theorem add_node_eq_of_get_node {T : Type} [LinearOrder T] (v : T) :
    ∀ t : RTree T, Tree.get_node v t = some v → Tree.add_node v t = t := by
  intro t
  induction t with
  | nil => intro h; simp [Tree.get_node] at h
  | node d l r ihl ihr =>
    intro h
    rw [get_node_node] at h
    by_cases h1 : v > d
    · rw [if_pos h1] at h
      cases r with
      | nil => simp [Tree.get_node] at h
      | node dr lr rr => rw [add_node_gt_node l _ (by simp) h1, ihr h]
    · rw [if_neg h1] at h
      by_cases h2 : v < d
      · rw [if_pos h2] at h
        cases l with
        | nil => simp [Tree.get_node] at h
        | node dl ll rl => rw [add_node_lt_node _ r (by simp) h2, ihl h]
      · exact add_node_stop l r h1 h2

/-- C8: calling add(v) on a tree that already contains v is a silent no-op
with no structural change, so the length of a subsequent in_order
traversal is unchanged. -/
theorem bst_add_idempotent_of_present {T : Type} [LinearOrder T] (t : RTree T) (v : T)
    (h : Tree.get t v = some v) :
    Bst.add t v = t ∧ (Tree.in_order (Bst.add t v)).length = (Tree.in_order t).length := by
  have hn : Tree.add_node v t = t := add_node_eq_of_get_node v t h
  cases t with
  | nil => simp [Tree.get, Tree.get_node] at h
  | node d l r =>
    have : Bst.add (.node d l r) v = RTree.node d l r := by
      simpa [Bst.add] using hn
    exact ⟨this, by rw [this]⟩

/-- Witness for bst_add_idempotent_of_present at the tree new(5) and the
value 5. -/
theorem bst_add_idempotent_of_present_witness :
    Tree.get (Bst.new (5 : Int)) 5 = some 5
      ∧ (Bst.add (Bst.new (5 : Int)) 5 = Bst.new 5
        ∧ (Tree.in_order (Bst.add (Bst.new (5 : Int)) 5)).length
            = (Tree.in_order (Bst.new (5 : Int))).length) :=
  ⟨by decide, bst_add_idempotent_of_present (Bst.new 5) 5 (by decide)⟩

/-- C1: refutation at a concrete input. On the tree built by new(10) then
add(5), deleting the root value 10 drops the root box and nulls the root
slot, so both subtrees become unreachable: the never-deleted value 5 is no
longer retrievable, contradicting the claim that the root's subtrees are
preserved and every other inserted value stays retrievable. -/
theorem bst_delete_root_discards_subtrees :
    Bst.delete (Bst.add (Bst.new (10 : Int)) 5) 10 = some RTree.nil
      ∧ (Bst.delete (Bst.add (Bst.new (10 : Int)) 5) 10).map (fun t => Tree.get t 5)
          = some none
      ∧ Tree.get (Bst.add (Bst.new (10 : Int)) 5) 5 = some 5 := by
  decide

/-- C3: refutation at concrete inputs. delete on a tree whose root slot is
already empty dereferences the null root; pop on an empty list frees a
null pointer; remove_data on an empty list dereferences the null root.
Each is undefined behaviour (the embedding's fault marker), not a silent
no-op. -/
theorem ops_fault_on_empty_structures :
    Bst.delete (RTree.nil : RTree Int) 0 = none
      ∧ Sll.pop (Sll.new_empty : Sll.SinglyLinkedList Int) = none
      ∧ Sll.remove_data (Sll.new_empty : Sll.SinglyLinkedList Int) 0 = none := by
  decide

/-- C4: refutation at a concrete input. In lib.rs, on the tree built by
new(10), add(5), add(15), deleting the left leaf 5 runs the helper's
no-children case, which always frees the parent's right slot: node 15 is
deleted instead, node 5 stays attached, so get(5) still succeeds and
get(15) fails. -/
theorem libt_leaf_delete_detaches_wrong_slot :
    ((LibT.add (LibT.new (10 : Int)) 5).bind (fun t => LibT.add t 15)).bind
        (fun t => LibT.delete t 5)
      = some (RTree.node 10 (RTree.node 5 RTree.nil RTree.nil) RTree.nil)
      ∧ Tree.get (RTree.node (10 : Int) (RTree.node 5 RTree.nil RTree.nil) RTree.nil) 5
          = some 5
      ∧ Tree.get (RTree.node (10 : Int) (RTree.node 5 RTree.nil RTree.nil) RTree.nil) 15
          = none := by
  decide

/-- C6: the binary_search_tree.rs half holds (a null root is replaced by a
fresh root node and the value is then retrievable), but in lib.rs — where
the empty tree is reached by deleting the root's value — add dereferences
the null root instead of installing the value, refuting the claim for
that implementation. -/
theorem add_on_empty_tree_divergence :
    Bst.add (RTree.nil : RTree Int) 5 = RTree.node 5 RTree.nil RTree.nil
      ∧ Tree.get (Bst.add (RTree.nil : RTree Int) 5) 5 = some 5
      ∧ LibT.delete (LibT.new (10 : Int)) 10 = some RTree.nil
      ∧ LibT.add (RTree.nil : RTree Int) 5 = none := by
  decide

/-- C7: on the tree built by new(10), add(5), add(1), add(9), delete(&5)
replaces the data of the node that held 5 with its in-order successor 9
(the node keeps its position and left child; the successor node is
unlinked from the right slot), get(&5) then fails and in_order visits
exactly 1, 9, 10. -/
theorem bst_two_child_delete_scenario :
    Bst.delete (Bst.add (Bst.add (Bst.add (Bst.new (10 : Int)) 5) 1) 9) 5
      = some (RTree.node 10 (RTree.node 9 (RTree.node 1 RTree.nil RTree.nil) RTree.nil)
          RTree.nil)
      ∧ Tree.get (RTree.node (10 : Int)
            (RTree.node 9 (RTree.node 1 RTree.nil RTree.nil) RTree.nil) RTree.nil) 5
          = none
      ∧ Tree.in_order (RTree.node (10 : Int)
            (RTree.node 9 (RTree.node 1 RTree.nil RTree.nil) RTree.nil) RTree.nil)
          = [1, 9, 10] := by
  decide

/-- C9: on the tree built by new(10) then add 5, 1, 9, 15, 30, 11, the
three depth-first traversals visit exactly the claimed sequences (the
callback fires once per value, each list having one entry per node; the
traversals are read-only functions of the tree). -/
theorem bst_traversal_scenario :
    Tree.in_order (Bst.add (Bst.add (Bst.add (Bst.add (Bst.add
        (Bst.add (Bst.new (10 : Int)) 5) 1) 9) 15) 30) 11)
        = [1, 5, 9, 10, 11, 15, 30]
      ∧ Tree.pre_order (Bst.add (Bst.add (Bst.add (Bst.add (Bst.add
          (Bst.add (Bst.new (10 : Int)) 5) 1) 9) 15) 30) 11)
          = [10, 5, 1, 9, 15, 11, 30]
      ∧ Tree.post_order (Bst.add (Bst.add (Bst.add (Bst.add (Bst.add
          (Bst.add (Bst.new (10 : Int)) 5) 1) 9) 15) 30) 11)
          = [1, 9, 5, 11, 30, 15, 10] := by
  decide

/-- C2: refutation at a concrete input. Starting from new(10), push(20),
push(30), the call remove_data(20) removes the middle node by re-linking
around it but never decrements the size field: the resulting list has
size 3 while only two nodes are reachable from the head. -/
theorem sll_remove_data_size_stale :
    ((Sll.push (Sll.new (10 : Int)) 20).bind (fun s => Sll.push s 30)).bind
        (fun s => Sll.remove_data s 20)
      = some (Sll.SinglyLinkedList.mk
          [Sll.Node.mk 10 (some 2), Sll.Node.mk 20 (some 2), Sll.Node.mk 30 none]
          (some 0) (some 2) 3)
      ∧ Sll.reachLen
          [Sll.Node.mk (10 : Int) (some 2), Sll.Node.mk 20 (some 2), Sll.Node.mk 30 none]
          4 (some 0) = some 2
      ∧ (3 : Nat) ≠ 2 := by
  decide

/-- A chain step: a non-empty chain starts at its head address, which
dereferences to a node whose next slot chains the tail. -/
theorem chainB_cons {T : Type} [DecidableEq T] {h : List (Sll.Node T)}
    {o : Option Nat} {q : Nat} {ps : List Nat}
    (hc : Sll.chainB h o (q :: ps) = true) :
    o = some q ∧ ∃ nd, h[q]? = some nd ∧ Sll.chainB h nd.next ps = true := by
  cases o with
  | none => simp [Sll.chainB] at hc
  | some p =>
    rw [Sll.chainB, Bool.and_eq_true, beq_iff_eq] at hc
    obtain ⟨rfl, hc⟩ := hc
    cases hnd : h[p]? with
    | none => rw [hnd] at hc; simp at hc
    | some nd =>
      rw [hnd] at hc
      exact And.intro rfl (Exists.intro nd (And.intro rfl hc))

/-- Every address on a chain dereferences to a node. -/
theorem chainB_get {T : Type} [DecidableEq T] {h : List (Sll.Node T)} :
    ∀ (ps : List Nat) (o : Option Nat), Sll.chainB h o ps = true →
      ∀ (i q : Nat), ps[i]? = some q → ∃ nd, h[q]? = some nd := by
  intro ps
  induction ps with
  | nil => intro o _ i q hq; simp at hq
  | cons p tl ih =>
    intro o hc i q hq
    obtain ⟨-, nd, hnd, hc'⟩ := chainB_cons hc
    cases i with
    | zero =>
      rw [List.getElem?_cons_zero] at hq
      obtain rfl : p = q := by injection hq
      exact ⟨nd, hnd⟩
    | succ j =>
      rw [List.getElem?_cons_succ] at hq
      exact ih nd.next hc' j q hq

/-- chainVals unfolds along a valid head dereference. -/
theorem chainVals_cons {T : Type} [DecidableEq T] (h : List (Sll.Node T))
    (p : Nat) (tl : List Nat) (nd : Sll.Node T) (hnd : h[p]? = some nd) :
    Sll.chainVals h (p :: tl) = nd.data :: Sll.chainVals h tl := by
  simp [Sll.chainVals, List.filterMap_cons, hnd]

/-- The i-th value of a chain is the data of the node at the i-th chained
address. -/
theorem chainVals_get {T : Type} [DecidableEq T] {h : List (Sll.Node T)} :
    ∀ (ps : List Nat) (o : Option Nat), Sll.chainB h o ps = true →
      ∀ (i q : Nat) (nd : Sll.Node T), ps[i]? = some q → h[q]? = some nd →
        (Sll.chainVals h ps)[i]? = some nd.data := by
  intro ps
  induction ps with
  | nil => intro o _ i q nd hq _; simp at hq
  | cons p tl ih =>
    intro o hc i q nd hq hnd
    obtain ⟨-, nd0, hnd0, hc'⟩ := chainB_cons hc
    rw [chainVals_cons h p tl nd0 hnd0]
    cases i with
    | zero =>
      rw [List.getElem?_cons_zero] at hq
      obtain rfl : p = q := by injection hq
      rw [hnd0] at hnd
      obtain rfl : nd0 = nd := by injection hnd
      rw [List.getElem?_cons_zero]
    | succ j =>
      rw [List.getElem?_cons_succ] at hq
      rw [List.getElem?_cons_succ]
      exact ih nd0.next hc' j q nd hq hnd

/-- One step of the get loop when its guard fails: the loop returns the
current pointer and position. -/
theorem getLoop_stop {T : Type} [DecidableEq T] (h : List (Sll.Node T))
    (index fuel current pos : Nat) (nd : Sll.Node T)
    (hnd : h[current]? = some nd) (hcond : ¬(nd.next ≠ none ∧ pos < index)) :
    Sll.getLoop h index (fuel + 1) current pos = some (current, pos) := by
  simp only [Sll.getLoop, hnd]
  rw [if_neg hcond]

/-- One step of the get loop when its guard holds: advance to the next
node and position. -/
theorem getLoop_step {T : Type} [DecidableEq T] (h : List (Sll.Node T))
    (index fuel current pos np : Nat) (nd : Sll.Node T)
    (hnd : h[current]? = some nd) (hnext : nd.next = some np) (hlt : pos < index) :
    Sll.getLoop h index (fuel + 1) current pos = Sll.getLoop h index fuel np (pos + 1) := by
  simp only [Sll.getLoop, hnd, hnext]
  rw [if_pos ⟨by simp, hlt⟩]

/-- Behaviour of the get loop on a chain: starting at chain position `pos`
with `pos ≤ index` and enough chain ahead, the loop walks to chain
position `index` and stops there, with fuel at least `index - pos + 1`. -/
theorem getLoop_spec {T : Type} [DecidableEq T] (h : List (Sll.Node T)) (index : Nat) :
    ∀ (tl : List Nat) (p pos fuel : Nat),
      Sll.chainB h (some p) (p :: tl) = true →
      pos ≤ index → index - pos ≤ tl.length → index - pos < fuel →
      ∃ q nd, (p :: tl)[index - pos]? = some q ∧ h[q]? = some nd ∧
        Sll.getLoop h index fuel p pos = some (q, index) := by
  intro tl
  induction tl with
  | nil =>
    intro p pos fuel hc hple hlen hfuel
    have hlen0 : index - pos ≤ 0 := by simpa using hlen
    have hpos : pos = index := by omega
    obtain ⟨-, nd, hnd, hc'⟩ := chainB_cons hc
    cases fuel with
    | zero => omega
    | succ f =>
      refine ⟨p, nd, by simp [hpos], hnd, ?_⟩
      have hcond : ¬(nd.next ≠ none ∧ pos < index) := by
        rw [hpos]; simp
      rw [getLoop_stop h index f p pos nd hnd hcond, hpos]
  | cons q tl' ih =>
    intro p pos fuel hc hple hlen hfuel
    obtain ⟨-, nd, hnd, hc'⟩ := chainB_cons hc
    by_cases hpos : pos = index
    · cases fuel with
      | zero => omega
      | succ f =>
        refine ⟨p, nd, by simp [hpos], hnd, ?_⟩
        have hcond : ¬(nd.next ≠ none ∧ pos < index) := by
          rw [hpos]; simp
        rw [getLoop_stop h index f p pos nd hnd hcond, hpos]
    · have hlt : pos < index := lt_of_le_of_ne hple hpos
      obtain ⟨hnext, nd2, hnd2, hc''⟩ := chainB_cons hc'
      rw [hnext] at hc'
      have hlen' : index - pos ≤ tl'.length + 1 := by simpa using hlen
      cases fuel with
      | zero => omega
      | succ f =>
        obtain ⟨q', nd', hq', hnd', hloop⟩ :=
          ih q (pos + 1) f hc' (by omega) (by omega) (by omega)
        refine ⟨q', nd', ?_, hnd', ?_⟩
        · have hstep : index - pos = (index - (pos + 1)) + 1 := by omega
          rw [hstep, List.getElem?_cons_succ]
          exact hq'
        · rw [getLoop_step h index f p pos q nd hnd hnext hlt]
          exact hloop

/-- C10: for every list state satisfying the §3 structural invariant
(the size field counts the chain of nodes reachable from the head, the
tail pointer is the last reachable node — the chain predicate also forces
the tail's next slot to be empty) and every index below size, get(index)
returns Some of the value stored at that 0-based position from the head. -/
theorem sll_get_correct_under_invariant {T : Type} [DecidableEq T]
    (s : Sll.SinglyLinkedList T) (ps : List Nat) (index : Nat)
    (hchain : Sll.chainB s.heap s.root ps = true)
    (hsize : s.size = ps.length)
    (hleaf : s.leaf = ps.getLast?)
    (hidx : index < s.size) :
    ∃ v, Sll.get s index = some (some v)
      ∧ (Sll.chainVals s.heap ps)[index]? = some v := by
  have hlen : 0 < ps.length := by omega
  simp only [Sll.get]
  rw [if_neg (by omega)]
  by_cases hlast : index = s.size - 1
  · rw [if_pos hlast]
    obtain ⟨q, hq⟩ : ∃ q, ps[ps.length - 1]? = some q := by
      cases hg : ps[ps.length - 1]? with
      | none => rw [List.getElem?_eq_none_iff] at hg; omega
      | some q => exact ⟨q, rfl⟩
    obtain ⟨nd, hnd⟩ := chainB_get ps s.root hchain _ q hq
    have hlf : s.leaf = some q := by
      rw [hleaf, List.getLast?_eq_getElem?, hq]
    refine ⟨nd.data, ?_, ?_⟩
    · simp only [Sll.get_last, hlf, hnd]
    · have hip : index = ps.length - 1 := by omega
      rw [hip]
      exact chainVals_get ps s.root hchain _ q nd hq hnd
  · rw [if_neg hlast]
    cases hps : ps with
    | nil => rw [hps] at hlen; simp at hlen
    | cons p0 tl =>
      rw [hps] at hchain
      obtain ⟨hroot, nd0, hnd0, hc'⟩ := chainB_cons hchain
      rw [hroot] at hchain
      by_cases h00 : index = 0
      · rw [if_pos h00]
        refine ⟨nd0.data, ?_, ?_⟩
        · simp only [Sll.get_first, hroot, hnd0]
        · rw [h00]
          exact chainVals_get (p0 :: tl) (some p0) hchain 0 p0 nd0
            List.getElem?_cons_zero hnd0
      · rw [if_neg h00]
        have hlen2 : index ≤ tl.length := by
          have hl1 : ps.length = tl.length + 1 := by rw [hps]; rfl
          omega
        obtain ⟨q, nd, hq, hnd, hloop⟩ :=
          getLoop_spec s.heap index tl p0 0 (index + 1) hchain (by omega)
            (by simpa using hlen2) (by omega)
        simp only [hroot, hloop]
        rw [if_neg (by simp)]
        simp only [hnd]
        refine ⟨nd.data, rfl, ?_⟩
        exact chainVals_get (p0 :: tl) (some p0) hchain index q nd
          (by simpa using hq) hnd

/-- Witness for sll_get_correct_under_invariant on the three-element list
10, 20, 30 at index 1. -/
theorem sll_get_correct_under_invariant_witness :
    ∃ v, Sll.get (Sll.SinglyLinkedList.mk
        [Sll.Node.mk (10 : Int) (some 1), Sll.Node.mk 20 (some 2), Sll.Node.mk 30 none]
        (some 0) (some 2) 3) 1 = some (some v)
      ∧ (Sll.chainVals
          [Sll.Node.mk (10 : Int) (some 1), Sll.Node.mk 20 (some 2), Sll.Node.mk 30 none]
          [0, 1, 2])[1]? = some v :=
  sll_get_correct_under_invariant
    (Sll.SinglyLinkedList.mk
      [Sll.Node.mk (10 : Int) (some 1), Sll.Node.mk 20 (some 2), Sll.Node.mk 30 none]
      (some 0) (some 2) 3)
    [0, 1, 2] 1 (by decide) (by decide) (by decide) (by decide)

end Dsa
